import Mathlib

/-!
Verification of the PackBits codec in `pytoshop/packbits.pyx`.

Byte buffers are modelled as `List Nat` (each element an unsigned byte value);
the Cython in-place pointer loops become pure list functions.  Unsigned
8/16-bit wraparound arithmetic of the prediction transform is modelled by
`ZMod 256` / `ZMod 65536`.
-/

namespace Packbits

/-- Cython `decode_row` (packbits.pyx lines 52-71), the unchecked row decoder:
read a signed header byte; `0 ≤ h ≤ 127` copies `h+1` literal bytes,
`h = -128` (byte value 128) is a no-op, otherwise `1 - h` (= `257 - byte`)
copies of the single following byte.  The C code performs unchecked pointer
reads; a read past the end of the input (undefined behaviour in the source)
is modelled as truncation, which coincides with the source on every
well-formed input. -/
def decode_row : List Nat → List Nat
  | [] => []
  | h :: rest =>
    if h ≤ 127 then
      rest.take (h + 1) ++ decode_row (rest.drop (h + 1))
    else if h = 128 then
      decode_row rest
    else
      match rest with
      | [] => []
      | b :: rest2 => List.replicate (257 - h) b ++ decode_row rest2
termination_by l => l.length
decreasing_by
  all_goals simp [List.length_drop]
  all_goals omega

/-- Cython `finish_raw` (lines 122-132): flush the pending literal buffer,
emitting header `buffer_pos - 1` followed by the buffered bytes; emits
nothing when the buffer is empty. -/
def finish_raw (buffer : List Nat) : List Nat :=
  if buffer.isEmpty then [] else (buffer.length - 1) :: buffer

/-- Cython `finish_rle` (lines 137-141): flush a repeat run of
`repeat_count` copies of byte `b`, emitting header `256 - (repeat_count - 1)`
(reduced to an unsigned char) followed by the run byte. -/
def finish_rle (repeat_count : Nat) (b : Nat) : List Nat :=
  [(256 - (repeat_count - 1)) % 256, b]

/-- The scan loop of Cython `encode` (lines 184-225).  The first argument is
the input from `input_pos` on (always nonempty: the C loop runs while
`input_pos < input_size - 1` and the epilogue handles the final byte);
`buffer` is the pending literal bytes, `state` is `RAW = false` / `RLE =
true`, and `repeat_count` counts the matched pairs of the current run. -/
def encodeLoop : List Nat → List Nat → Bool → Nat → List Nat
  | [], _, _, _ => []
  | [x], buffer, state, repeat_count =>
    if state then
      finish_rle (repeat_count + 1) x
    else
      finish_raw (buffer ++ [x])
  | x :: y :: rest, buffer, state, repeat_count =>
    if x = y then
      if state then
        if repeat_count = 127 then
          finish_rle 127 x ++ encodeLoop (y :: rest) buffer true 1
        else
          encodeLoop (y :: rest) buffer true (repeat_count + 1)
      else
        finish_raw buffer ++ encodeLoop (y :: rest) [] true 1
    else
      if state then
        finish_rle (repeat_count + 1) x ++ encodeLoop (y :: rest) buffer false 0
      else
        if buffer.length = 127 then
          finish_raw buffer ++ encodeLoop (y :: rest) [x] false repeat_count
        else
          encodeLoop (y :: rest) (buffer ++ [x]) false repeat_count

/-- Cython `encode` (lines 146-229): empty input gives empty output, a single
byte gives header `0x00` plus the byte, otherwise the two-state scan loop
starting in RAW with an empty literal buffer. -/
def encode (data : List Nat) : List Nat :=
  match data with
  | [] => []
  | [x] => [0, x]
  | _ => encodeLoop data [] false 0

/-! ### Rewrite equations for `decode_row` and the flush helpers -/

theorem decode_row_nil : decode_row [] = [] := by
  simp [decode_row]

theorem decode_row_literal (h : Nat) (rest : List Nat) (hh : h ≤ 127) :
    decode_row (h :: rest) = rest.take (h + 1) ++ decode_row (rest.drop (h + 1)) := by
  rw [decode_row.eq_def]
  simp [hh]

theorem decode_row_noop (rest : List Nat) :
    decode_row (128 :: rest) = decode_row rest := by
  rw [decode_row.eq_def]
  norm_num

theorem decode_row_repeat (h b : Nat) (rest : List Nat) (h1 : 129 ≤ h) :
    decode_row (h :: b :: rest) = List.replicate (257 - h) b ++ decode_row rest := by
  rw [decode_row.eq_def]
  have hx : ¬ h ≤ 127 := by omega
  have hx2 : ¬ h = 128 := by omega
  simp [hx, hx2]

theorem decode_finish_raw (buf rest : List Nat) (hlen : buf.length ≤ 128) :
    decode_row (finish_raw buf ++ rest) = buf ++ decode_row rest := by
  cases buf with
  | nil => simp [finish_raw]
  | cons a l =>
    have h1 : (a :: l).length - 1 ≤ 127 := by
      simp only [List.length_cons] at hlen ⊢; omega
    rw [finish_raw]
    simp only [List.isEmpty_cons, Bool.false_eq_true, if_false]
    have hsplit : ((((a :: l).length - 1) :: (a :: l)) ++ rest : List Nat)
        = ((a :: l).length - 1) :: ((a :: l) ++ rest) := rfl
    have h2 : (a :: l).length - 1 + 1 = (a :: l).length := by simp
    rw [hsplit, decode_row_literal _ _ h1, h2, List.take_left, List.drop_left]

theorem decode_finish_rle (rc b : Nat) (rest : List Nat) (h2 : 2 ≤ rc) (h128 : rc ≤ 128) :
    decode_row (finish_rle rc b ++ rest) = List.replicate rc b ++ decode_row rest := by
  rw [finish_rle]
  have hv : (256 - (rc - 1)) % 256 = 257 - rc := by omega
  rw [hv]
  simp only [List.cons_append, List.nil_append]
  rw [decode_row_repeat _ _ _ (by omega)]
  have : 257 - (257 - rc) = rc := by omega
  rw [this]

/-! ### Rewrite equations for the `encode` scan loop -/

theorem encodeLoop_last_raw (x : Nat) (buf : List Nat) (rc : Nat) :
    encodeLoop [x] buf false rc = finish_raw (buf ++ [x]) := by
  simp [encodeLoop]

theorem encodeLoop_last_rle (x : Nat) (buf : List Nat) (rc : Nat) :
    encodeLoop [x] buf true rc = finish_rle (rc + 1) x := by
  simp [encodeLoop]

theorem encodeLoop_eq_raw (x y : Nat) (rest buf : List Nat) (rc : Nat) (h : x = y) :
    encodeLoop (x :: y :: rest) buf false rc =
      finish_raw buf ++ encodeLoop (y :: rest) [] true 1 := by
  simp [encodeLoop, h]

theorem encodeLoop_eq_rle_flush (x y : Nat) (rest buf : List Nat) (h : x = y) :
    encodeLoop (x :: y :: rest) buf true 127 =
      finish_rle 127 x ++ encodeLoop (y :: rest) buf true 1 := by
  simp [encodeLoop, h]

theorem encodeLoop_eq_rle (x y : Nat) (rest buf : List Nat) (rc : Nat) (h : x = y)
    (hrc : rc ≠ 127) :
    encodeLoop (x :: y :: rest) buf true rc =
      encodeLoop (y :: rest) buf true (rc + 1) := by
  simp [encodeLoop, h, hrc]

theorem encodeLoop_ne_rle (x y : Nat) (rest buf : List Nat) (rc : Nat) (h : x ≠ y) :
    encodeLoop (x :: y :: rest) buf true rc =
      finish_rle (rc + 1) x ++ encodeLoop (y :: rest) buf false 0 := by
  simp [encodeLoop, h]

theorem encodeLoop_ne_raw_full (x y : Nat) (rest buf : List Nat) (rc : Nat) (h : x ≠ y)
    (hb : buf.length = 127) :
    encodeLoop (x :: y :: rest) buf false rc =
      finish_raw buf ++ encodeLoop (y :: rest) [x] false rc := by
  simp [encodeLoop, h, hb]

theorem encodeLoop_ne_raw (x y : Nat) (rest buf : List Nat) (rc : Nat) (h : x ≠ y)
    (hb : buf.length ≠ 127) :
    encodeLoop (x :: y :: rest) buf false rc =
      encodeLoop (y :: rest) (buf ++ [x]) false rc := by
  simp [encodeLoop, h, hb]

/-! ### The core round-trip induction -/

theorem encodeLoop_round_trip :
    ∀ n (l : List Nat), l.length ≤ n → l ≠ [] →
      (∀ buf rc, buf.length ≤ 127 →
        decode_row (encodeLoop l buf false rc) = buf ++ l) ∧
      (∀ x rest rc, l = x :: rest → 1 ≤ rc → rc ≤ 127 →
        decode_row (encodeLoop l [] true rc) = List.replicate rc x ++ l) := by
  intro n
  induction n with
  | zero =>
    intro l hl hne
    cases l with
    | nil => exact absurd rfl hne
    | cons a t => simp at hl
  | succ n ih =>
    intro l hl hne
    match l with
    | [x] =>
      constructor
      · intro buf rc hbuf
        rw [encodeLoop_last_raw]
        have := decode_finish_raw (buf ++ [x]) [] (by simp; omega)
        simpa [decode_row_nil] using this
      · intro x' rest' rc hEq h1 h127
        cases hEq
        rw [encodeLoop_last_rle]
        have := decode_finish_rle (rc + 1) x [] (by omega) (by omega)
        simp only [List.append_nil, decode_row_nil] at this
        rw [this, List.replicate_succ' rc x]
    | x :: y :: rest =>
      have hlen' : (y :: rest).length ≤ n := by
        simp only [List.length_cons] at hl ⊢; omega
      have ihspec := ih (y :: rest) hlen' (by simp)
      constructor
      · intro buf rc hbuf
        by_cases hxy : x = y
        · rw [encodeLoop_eq_raw _ _ _ _ _ hxy]
          rw [decode_finish_raw buf _ (by omega)]
          rw [ihspec.2 y rest 1 rfl (by omega) (by omega)]
          subst hxy
          simp
        · by_cases hbl : buf.length = 127
          · rw [encodeLoop_ne_raw_full _ _ _ _ _ hxy hbl]
            rw [decode_finish_raw buf _ (by omega)]
            rw [ihspec.1 [x] rc (by simp)]
            simp
          · rw [encodeLoop_ne_raw _ _ _ _ _ hxy hbl]
            rw [ihspec.1 (buf ++ [x]) rc (by simp; omega)]
            simp
      · intro x' rest' rc hEq h1 h127
        cases hEq
        by_cases hxy : x = y
        · by_cases hrc : rc = 127
          · subst hrc
            rw [encodeLoop_eq_rle_flush _ _ _ _ hxy]
            rw [decode_finish_rle 127 x _ (by omega) (by omega)]
            rw [ihspec.2 y rest 1 rfl (by omega) (by omega)]
            subst hxy
            simp [List.replicate_succ]
          · rw [encodeLoop_eq_rle _ _ _ _ _ hxy hrc]
            rw [ihspec.2 y rest (rc + 1) rfl (by omega) (by omega)]
            subst hxy
            rw [List.replicate_succ' rc x]
            simp
        · rw [encodeLoop_ne_rle _ _ _ _ _ hxy]
          rw [decode_finish_rle (rc + 1) x _ (by omega) (by omega)]
          rw [ihspec.1 [] 0 (by simp)]
          rw [List.replicate_succ' rc x]
          simp

theorem decode_row_encode (data : List Nat) : decode_row (encode data) = data := by
  match data with
  | [] => simp [encode, decode_row_nil]
  | [x] =>
    rw [encode]
    rw [decode_row_literal 0 [x] (by omega)]
    simp [decode_row_nil]
  | x :: y :: rest =>
    rw [show encode (x :: y :: rest) = encodeLoop (x :: y :: rest) [] false 0 from rfl]
    have := (encodeLoop_round_trip (x :: y :: rest).length (x :: y :: rest) le_rfl
      (by simp)).1 [] 0 (by simp)
    simpa using this

/-! ### Output-size bound for `encode` -/

/-- The number of output bytes `finish_raw` emits for a pending buffer:
nothing for an empty buffer, otherwise one header byte plus the buffer. -/
def rawCost (buffer : List Nat) : Nat :=
  if buffer.isEmpty then 0 else buffer.length + 1

theorem finish_raw_length (buffer : List Nat) :
    (finish_raw buffer).length = rawCost buffer := by
  cases buffer <;> simp [finish_raw, rawCost]

theorem rawCost_nil : rawCost [] = 0 := rfl

theorem rawCost_append_single (buf : List Nat) (x : Nat) :
    rawCost (buf ++ [x]) = buf.length + 2 := by
  simp [rawCost]

theorem rawCost_le (buf : List Nat) : rawCost buf ≤ buf.length + 1 := by
  cases buf <;> simp [rawCost]

theorem length_le_rawCost (buf : List Nat) : buf.length ≤ rawCost buf := by
  cases buf <;> simp [rawCost]

theorem encodeLoop_length_le :
    ∀ n (l : List Nat), l.length ≤ n → l ≠ [] →
      ∀ buf state rc, (encodeLoop l buf state rc).length ≤ 2 * l.length + rawCost buf := by
  intro n
  induction n with
  | zero =>
    intro l hl hne
    cases l with
    | nil => exact absurd rfl hne
    | cons a t => simp at hl
  | succ n ih =>
    intro l hl hne buf state rc
    match l with
    | [x] =>
      cases state with
      | false =>
        rw [encodeLoop_last_raw, finish_raw_length, rawCost_append_single]
        have := length_le_rawCost buf
        simp only [List.length_cons, List.length_nil]
        omega
      | true =>
        rw [encodeLoop_last_rle]
        simp [finish_rle]
    | x :: y :: rest =>
      have hlen' : (y :: rest).length ≤ n := by
        simp only [List.length_cons] at hl ⊢; omega
      have hne' : (y :: rest) ≠ [] := by simp
      by_cases hxy : x = y
      · cases state with
        | false =>
          rw [encodeLoop_eq_raw _ _ _ _ _ hxy]
          have h1 := ih (y :: rest) hlen' hne' [] true 1
          have h2 := finish_raw_length buf
          have h3 := rawCost_le buf
          have h4 := length_le_rawCost buf
          simp only [List.length_append, List.length_cons, rawCost_nil] at h1 h2 ⊢
          omega
        | true =>
          by_cases hrc : rc = 127
          · subst hrc
            rw [encodeLoop_eq_rle_flush _ _ _ _ hxy]
            have h1 := ih (y :: rest) hlen' hne' buf true 1
            simp only [List.length_append, List.length_cons, finish_rle] at h1 ⊢
            simp only [List.length_cons, List.length_nil]
            omega
          · rw [encodeLoop_eq_rle _ _ _ _ _ hxy hrc]
            have h1 := ih (y :: rest) hlen' hne' buf true (rc + 1)
            simp only [List.length_cons] at h1 ⊢
            omega
      · cases state with
        | true =>
          rw [encodeLoop_ne_rle _ _ _ _ _ hxy]
          have h1 := ih (y :: rest) hlen' hne' buf false 0
          simp only [List.length_append, List.length_cons, finish_rle] at h1 ⊢
          simp only [List.length_cons, List.length_nil]
          omega
        | false =>
          by_cases hbl : buf.length = 127
          · rw [encodeLoop_ne_raw_full _ _ _ _ _ hxy hbl]
            have h1 := ih (y :: rest) hlen' hne' [x] false rc
            have h2 := finish_raw_length buf
            have h3 := rawCost_le buf
            have h4 := length_le_rawCost buf
            simp only [List.length_append, List.length_cons, List.length_nil,
              rawCost] at h1 h2 ⊢
            simp at h1
            omega
          · rw [encodeLoop_ne_raw _ _ _ _ _ hxy hbl]
            have h1 := ih (y :: rest) hlen' hne' (buf ++ [x]) false rc
            have h2 := rawCost_append_single buf x
            have h4 := length_le_rawCost buf
            simp only [List.length_cons] at h1 ⊢
            omega

/-! ### The prediction (delta) transform, `ZMod` models wraparound -/

/-- The forward loop of `decode_prediction_8bit`/`_16bit` (lines 16-17, 26-27):
`input[i+1] += input[i]` running left to right, so each element receives the
already-updated value of its predecessor (carried here as `prev`). -/
def predSumLoop {α : Type} [Add α] : α → List α → List α
  | _, [] => []
  | prev, x :: rest => (x + prev) :: predSumLoop (x + prev) rest

/-- The reverse loop of `encode_prediction_8bit`/`_16bit` (lines 36-37, 46-47):
`input[i] -= input[i-1]` running from the end down to index 1, so each
subtraction reads the still-original value of the predecessor (carried here
as `prev`). -/
def predDiffLoop {α : Type} [Sub α] : α → List α → List α
  | _, [] => []
  | prev, x :: rest => (x - prev) :: predDiffLoop x rest

/-- Cython `decode_prediction_8bit` (lines 12-17): in-place cumulative sum
over unsigned chars, modelled on `ZMod 256` elements. -/
def decode_prediction_8bit (data : List (ZMod 256)) : List (ZMod 256) :=
  match data with
  | [] => []
  | x :: rest => x :: predSumLoop x rest

/-- Cython `decode_prediction_16bit` (lines 21-27): the same cumulative sum
over the 16-bit element view (`unsigned short [:]`), modelled on
`ZMod 65536` elements. -/
def decode_prediction_16bit (data : List (ZMod 65536)) : List (ZMod 65536) :=
  match data with
  | [] => []
  | x :: rest => x :: predSumLoop x rest

/-- Cython `encode_prediction_8bit` (lines 31-37): in-place reverse-order
difference over unsigned chars. -/
def encode_prediction_8bit (data : List (ZMod 256)) : List (ZMod 256) :=
  match data with
  | [] => []
  | x :: rest => x :: predDiffLoop x rest

/-- Cython `encode_prediction_16bit` (lines 41-47): reverse-order difference
over the 16-bit element view. -/
def encode_prediction_16bit (data : List (ZMod 65536)) : List (ZMod 65536) :=
  match data with
  | [] => []
  | x :: rest => x :: predDiffLoop x rest

theorem predDiffLoop_predSumLoop {α : Type} [AddGroup α] (p : α) (l : List α) :
    predDiffLoop p (predSumLoop p l) = l := by
  induction l generalizing p with
  | nil => rfl
  | cons x rest ih => simp [predSumLoop, predDiffLoop, ih]

theorem predSumLoop_length {α : Type} [Add α] (p : α) (l : List α) :
    (predSumLoop p l).length = l.length := by
  induction l generalizing p with
  | nil => rfl
  | cons x rest ih => simp [predSumLoop, ih]

theorem predDiffLoop_length {α : Type} [Sub α] (p : α) (l : List α) :
    (predDiffLoop p l).length = l.length := by
  induction l generalizing p with
  | nil => rfl
  | cons x rest ih => simp [predDiffLoop, ih]

/-! ### Maximal runs of identical and of pairwise-distinct bytes -/

theorem encodeLoop_replicate (v : Nat) :
    ∀ k rc, rc + k ≤ 127 →
      encodeLoop (v :: List.replicate k v) [] true rc = finish_rle (rc + k + 1) v := by
  intro k
  induction k with
  | zero =>
    intro rc h
    simp [List.replicate, encodeLoop_last_rle]
  | succ k ih =>
    intro rc h
    rw [List.replicate_succ]
    rw [encodeLoop_eq_rle _ _ _ _ _ rfl (by omega)]
    rw [ih (rc + 1) (by omega)]
    have : rc + 1 + k + 1 = rc + (k + 1) + 1 := by omega
    rw [this]

theorem encodeLoop_chain_short :
    ∀ (l buf : List Nat) (rc : Nat), l ≠ [] → List.Chain' (fun a b => a ≠ b) l →
      buf.length + l.length ≤ 128 →
      encodeLoop l buf false rc = finish_raw (buf ++ l) := by
  intro l
  induction l with
  | nil => intro buf rc hne; exact absurd rfl hne
  | cons x t ih =>
    intro buf rc hne hchain hlen
    cases t with
    | nil => rw [encodeLoop_last_raw]
    | cons y rest =>
      have hxy : x ≠ y := List.Chain'.rel_head hchain
      have hb : buf.length ≠ 127 := by
        simp only [List.length_cons] at hlen; omega
      rw [encodeLoop_ne_raw _ _ _ _ _ hxy hb]
      rw [ih (buf ++ [x]) rc (by simp) hchain.tail
        (by simp only [List.length_append, List.length_cons] at hlen ⊢; simp; omega)]
      simp

theorem encodeLoop_chain_long :
    ∀ (l buf : List Nat) (rc : Nat), List.Chain' (fun a b => a ≠ b) l →
      buf.length + l.length = 129 → buf.length ≤ 127 →
      encodeLoop l buf false rc =
        finish_raw (buf ++ l.take (127 - buf.length)) ++
          finish_raw (l.drop (127 - buf.length)) := by
  intro l
  induction l with
  | nil =>
    intro buf rc hchain hlen hble
    simp only [List.length_nil] at hlen
    omega
  | cons x t ih =>
    intro buf rc hchain hlen hble
    cases t with
    | nil =>
      simp only [List.length_cons, List.length_nil] at hlen
      omega
    | cons y rest =>
      have hxy : x ≠ y := List.Chain'.rel_head hchain
      by_cases hb : buf.length = 127
      · have hrest : rest = [] := by
          simp only [List.length_cons] at hlen
          have : rest.length = 0 := by omega
          exact List.length_eq_zero.mp this
        subst hrest
        rw [encodeLoop_ne_raw_full _ _ _ _ _ hxy hb]
        rw [encodeLoop_last_raw]
        rw [hb]
        simp
      · rw [encodeLoop_ne_raw _ _ _ _ _ hxy hb]
        rw [ih (buf ++ [x]) rc hchain.tail
          (by simp only [List.length_append, List.length_cons] at hlen ⊢; simp; omega)
          (by simp; omega)]
        have h1 : 127 - (buf ++ [x]).length = 126 - buf.length := by
          simp only [List.length_append, List.length_cons, List.length_nil]
          omega
        have h2 : 127 - buf.length = (126 - buf.length) + 1 := by omega
        rw [h1, h2]
        simp [List.take_succ_cons, List.drop_succ_cons]

theorem encode_eq_loop (l : List Nat) (hl : 2 ≤ l.length) :
    encode l = encodeLoop l [] false 0 := by
  match l with
  | [] => simp at hl
  | [x] => simp at hl
  | x :: y :: rest => rfl

theorem encode_replicate_128 (v : Nat) :
    encode (List.replicate 128 v) = [129, v] := by
  have hshape : List.replicate 128 v = v :: v :: List.replicate 126 v := by
    rw [show (128 : Nat) = 126 + 1 + 1 from rfl]
    rw [List.replicate_succ, List.replicate_succ]
  rw [hshape]
  rw [encode_eq_loop _ (by simp)]
  rw [encodeLoop_eq_raw _ _ _ _ _ rfl]
  rw [encodeLoop_replicate v 126 1 (by omega)]
  simp [finish_raw, finish_rle]

theorem encode_chain_128 (l : List Nat) (hlen : l.length = 128)
    (hchain : List.Chain' (fun a b => a ≠ b) l) :
    encode l = 127 :: l := by
  rw [encode_eq_loop _ (by omega)]
  rw [encodeLoop_chain_short l [] 0 (by intro h; subst h; simp at hlen) hchain
    (by simp [hlen])]
  rw [finish_raw]
  have : l.isEmpty = false := by
    cases l with
    | nil => simp at hlen
    | cons a t => rfl
  simp [this, hlen]

theorem encode_chain_129 (l : List Nat) (hlen : l.length = 129)
    (hchain : List.Chain' (fun a b => a ≠ b) l) :
    encode l = (126 :: l.take 127) ++ 1 :: l.drop 127 := by
  rw [encode_eq_loop _ (by omega)]
  rw [encodeLoop_chain_long l [] 0 hchain (by simp [hlen]) (by simp)]
  have ht : (l.take 127).isEmpty = false := by
    cases l with
    | nil => simp at hlen
    | cons a t => rfl
  have h2 : (l.drop 127).length = 2 := by
    rw [List.length_drop]; omega
  have hd : (l.drop 127).isEmpty = false := by
    cases hcase : l.drop 127 with
    | nil => rw [hcase] at h2; simp at h2
    | cons a t => rfl
  simp only [List.length_nil, Nat.sub_zero, List.nil_append]
  rw [finish_raw, finish_raw, ht, hd]
  simp only [Bool.false_eq_true, if_false]
  have h1 : (l.take 127).length = 127 := by
    rw [List.length_take]; omega
  rw [h1, h2]

/-! ### A maximal pair of equal bytes always becomes a repeat run -/

theorem encodeLoop_reaches_pair (x : Nat) (b : List Nat) :
    ∀ (a : List Nat), a ≠ [] → a.getLast? ≠ some x →
      ∀ (buf : List Nat) (state : Bool) (rc : Nat), ∃ out buf2 rc2,
        encodeLoop (a ++ x :: x :: b) buf state rc =
          out ++ encodeLoop (x :: x :: b) buf2 false rc2 := by
  intro a
  induction a with
  | nil => intro hne; exact absurd rfl hne
  | cons z t ih =>
    intro hne hlast buf state rc
    cases t with
    | nil =>
      have hzx : z ≠ x := by
        intro h
        exact hlast (by simp [h])
      simp only [List.cons_append, List.nil_append]
      cases state with
      | true =>
        rw [encodeLoop_ne_rle _ _ _ _ _ hzx]
        exact ⟨finish_rle (rc + 1) z, buf, 0, rfl⟩
      | false =>
        by_cases hb : buf.length = 127
        · rw [encodeLoop_ne_raw_full _ _ _ _ _ hzx hb]
          exact ⟨finish_raw buf, [z], rc, rfl⟩
        · rw [encodeLoop_ne_raw _ _ _ _ _ hzx hb]
          exact ⟨[], buf ++ [z], rc, by simp⟩
    | cons w t2 =>
      have hlast2 : (w :: t2).getLast? ≠ some x := by
        rwa [List.getLast?_cons_cons] at hlast
      have hne2 : (w :: t2) ≠ [] := by simp
      simp only [List.cons_append] at ih ⊢
      by_cases hzw : z = w
      · cases state with
        | false =>
          rw [encodeLoop_eq_raw _ _ _ _ _ hzw]
          obtain ⟨out, buf2, rc2, hout⟩ := ih hne2 hlast2 [] true 1
          exact ⟨finish_raw buf ++ out, buf2, rc2, by rw [hout, List.append_assoc]⟩
        | true =>
          by_cases hrc : rc = 127
          · subst hrc
            rw [encodeLoop_eq_rle_flush _ _ _ _ hzw]
            obtain ⟨out, buf2, rc2, hout⟩ := ih hne2 hlast2 buf true 1
            exact ⟨finish_rle 127 z ++ out, buf2, rc2, by rw [hout, List.append_assoc]⟩
          · rw [encodeLoop_eq_rle _ _ _ _ _ hzw hrc]
            exact ih hne2 hlast2 buf true (rc + 1)
      · cases state with
        | true =>
          rw [encodeLoop_ne_rle _ _ _ _ _ hzw]
          obtain ⟨out, buf2, rc2, hout⟩ := ih hne2 hlast2 buf false 0
          exact ⟨finish_rle (rc + 1) z ++ out, buf2, rc2, by rw [hout, List.append_assoc]⟩
        | false =>
          by_cases hb : buf.length = 127
          · rw [encodeLoop_ne_raw_full _ _ _ _ _ hzw hb]
            obtain ⟨out, buf2, rc2, hout⟩ := ih hne2 hlast2 [z] false rc
            exact ⟨finish_raw buf ++ out, buf2, rc2, by rw [hout, List.append_assoc]⟩
          · rw [encodeLoop_ne_raw _ _ _ _ _ hzw hb]
            exact ih hne2 hlast2 (buf ++ [z]) false rc

theorem finish_rle_two (x : Nat) : finish_rle 2 x = [255, x] := by
  norm_num [finish_rle]

theorem encodeLoop_pair_tail (x : Nat) (b : List Nat) (hb : b.head? ≠ some x)
    (buf2 : List Nat) (rc2 : Nat) :
    ∃ rest, encodeLoop (x :: x :: b) buf2 false rc2 =
      finish_raw buf2 ++ ([255, x] ++ rest) := by
  rw [encodeLoop_eq_raw _ _ _ _ _ rfl]
  cases b with
  | nil =>
    refine ⟨[], ?_⟩
    rw [encodeLoop_last_rle, finish_rle_two]
    simp
  | cons y b2 =>
    have hxy : x ≠ y := by
      intro h
      exact hb (by simp [h])
    rw [encodeLoop_ne_rle _ _ _ _ _ hxy, finish_rle_two]
    exact ⟨encodeLoop (y :: b2) [] false 0, rfl⟩

/-! ### Spec-modelled bounds-checked decoders -/

/-- Modelled from the spec: the error kinds of §7 (`MalformedRun`,
`TruncatedTable`, `TruncatedRow`, `SizeMismatch`).  The source has no such
error reporting (its decode loops are unchecked); the spec requires it. -/
inductive PackbitsError where
  | MalformedRun
  | TruncatedTable
  | TruncatedRow
  | SizeMismatch
deriving DecidableEq

/-- Modelled from the spec: the bounds-checked row-bounded RLE decode of
§4.1 ("before any copy, verify both the input cursor and output cursor stay
within their buffers; on violation, fail with `MalformedRun`"), which is
missing from the source (`decode_row` performs unchecked pointer copies).
The run structure interpreted is exactly that of the source `decode_row`;
`outLen` is the remaining room in the output buffer. -/
def decode_row_checked : List Nat → Nat → Except PackbitsError (List Nat)
  | [], _ => .ok []
  | h :: rest, outLen =>
    if h ≤ 127 then
      if h + 1 ≤ rest.length ∧ h + 1 ≤ outLen then
        (decode_row_checked (rest.drop (h + 1)) (outLen - (h + 1))).map
          (fun tail => rest.take (h + 1) ++ tail)
      else .error .MalformedRun
    else if h = 128 then
      decode_row_checked rest outLen
    else
      match rest with
      | [] => .error .MalformedRun
      | b :: rest2 =>
        if 257 - h ≤ outLen then
          (decode_row_checked rest2 (outLen - (257 - h))).map
            (fun tail => List.replicate (257 - h) b ++ tail)
        else .error .MalformedRun
termination_by l _ => l.length
decreasing_by
  all_goals simp [List.length_drop]
  all_goals omega

theorem drc_nil (outLen : Nat) : decode_row_checked [] outLen = .ok [] := by
  simp [decode_row_checked]

theorem drc_literal_in (h : Nat) (rest : List Nat) (outLen : Nat) (hh : h ≤ 127)
    (hin : h + 1 ≤ rest.length) (hout : h + 1 ≤ outLen) :
    decode_row_checked (h :: rest) outLen =
      (decode_row_checked (rest.drop (h + 1)) (outLen - (h + 1))).map
        (fun tail => rest.take (h + 1) ++ tail) := by
  rw [decode_row_checked.eq_def]
  simp [hh, hin, hout]

theorem drc_literal_out (h : Nat) (rest : List Nat) (outLen : Nat) (hh : h ≤ 127)
    (hfail : ¬(h + 1 ≤ rest.length ∧ h + 1 ≤ outLen)) :
    decode_row_checked (h :: rest) outLen = .error .MalformedRun := by
  rw [decode_row_checked.eq_def]
  simp only [hh, if_true]
  rw [if_neg hfail]

theorem drc_noop (rest : List Nat) (outLen : Nat) :
    decode_row_checked (128 :: rest) outLen = decode_row_checked rest outLen := by
  rw [decode_row_checked.eq_def]
  norm_num

theorem drc_repeat_empty (h : Nat) (outLen : Nat) (h1 : 129 ≤ h) :
    decode_row_checked [h] outLen = .error .MalformedRun := by
  rw [decode_row_checked.eq_def]
  have hx : ¬ h ≤ 127 := by omega
  have hx2 : ¬ h = 128 := by omega
  simp [hx, hx2]

theorem drc_repeat_in (h b : Nat) (rest2 : List Nat) (outLen : Nat)
    (h1 : 129 ≤ h) (hout : 257 - h ≤ outLen) :
    decode_row_checked (h :: b :: rest2) outLen =
      (decode_row_checked rest2 (outLen - (257 - h))).map
        (fun tail => List.replicate (257 - h) b ++ tail) := by
  rw [decode_row_checked.eq_def]
  have hx : ¬ h ≤ 127 := by omega
  have hx2 : ¬ h = 128 := by omega
  simp [hx, hx2, hout]

theorem drc_repeat_out (h b : Nat) (rest2 : List Nat) (outLen : Nat)
    (h1 : 129 ≤ h) (hout : ¬ 257 - h ≤ outLen) :
    decode_row_checked (h :: b :: rest2) outLen = .error .MalformedRun := by
  rw [decode_row_checked.eq_def]
  have hx : ¬ h ≤ 127 := by omega
  have hx2 : ¬ h = 128 := by omega
  simp [hx, hx2, hout]

theorem decode_row_checked_safe_aux :
    ∀ n (input : List Nat), input.length ≤ n → ∀ outLen,
      (∀ e, decode_row_checked input outLen = .error e → e = .MalformedRun) ∧
      (∀ out, decode_row_checked input outLen = .ok out →
        out.length ≤ outLen ∧ out = decode_row input) := by
  intro n
  induction n with
  | zero =>
    intro input hl outLen
    cases input with
    | nil =>
      constructor
      · intro e he
        rw [drc_nil] at he
        exact absurd he (by simp)
      · intro out hout
        rw [drc_nil] at hout
        injection hout with hout
        subst hout
        exact ⟨by simp, by rw [decode_row_nil]⟩
    | cons a t => simp at hl
  | succ n ih =>
    intro input hl outLen
    cases input with
    | nil =>
      constructor
      · intro e he
        rw [drc_nil] at he
        exact absurd he (by simp)
      · intro out hout
        rw [drc_nil] at hout
        injection hout with hout
        subst hout
        exact ⟨by simp, by rw [decode_row_nil]⟩
    | cons h rest =>
      have hlrest : rest.length ≤ n := by
        simp only [List.length_cons] at hl; omega
      by_cases hh : h ≤ 127
      · by_cases hcond : h + 1 ≤ rest.length ∧ h + 1 ≤ outLen
        · rw [drc_literal_in h rest outLen hh hcond.1 hcond.2] at *
          have hdroplen : (rest.drop (h + 1)).length ≤ n := by
            rw [List.length_drop]; omega
          have ihd := ih (rest.drop (h + 1)) hdroplen (outLen - (h + 1))
          constructor
          · intro e he
            cases hrec : decode_row_checked (rest.drop (h + 1)) (outLen - (h + 1)) with
            | ok tail => rw [hrec] at he; exact absurd he (by simp [Except.map])
            | error e2 =>
              rw [hrec] at he
              simp only [Except.map] at he
              injection he with he
              subst he
              exact ihd.1 e2 hrec
          · intro out hout
            cases hrec : decode_row_checked (rest.drop (h + 1)) (outLen - (h + 1)) with
            | error e2 => rw [hrec] at hout; exact absurd hout (by simp [Except.map])
            | ok tail =>
              rw [hrec] at hout
              simp only [Except.map] at hout
              injection hout with hout
              subst hout
              obtain ⟨htl, htd⟩ := ihd.2 tail hrec
              constructor
              · rw [List.length_append, List.length_take]
                omega
              · rw [decode_row_literal h rest hh, htd]
        · rw [drc_literal_out h rest outLen hh hcond]
          constructor
          · intro e he
            injection he with he
            exact he.symm
          · intro out hout
            exact absurd hout (by simp)
      · by_cases h128 : h = 128
        · subst h128
          rw [drc_noop]
          have ihr := ih rest hlrest outLen
          constructor
          · exact ihr.1
          · intro out hout
            obtain ⟨h1, h2⟩ := ihr.2 out hout
            exact ⟨h1, by rw [h2, decode_row_noop]⟩
        · -- repeat run header
          cases rest with
          | nil =>
            rw [drc_repeat_empty h outLen (by omega)]
            constructor
            · intro e he
              injection he with he
              exact he.symm
            · intro out hout
              exact absurd hout (by simp)
          | cons b rest2 =>
            have hl2 : rest2.length ≤ n := by
              have hx := hlrest
              simp only [List.length_cons] at hx
              omega
            by_cases hout127 : 257 - h ≤ outLen
            · rw [drc_repeat_in h b rest2 outLen (by omega) hout127]
              have ihr := ih rest2 hl2 (outLen - (257 - h))
              constructor
              · intro e he
                cases hrec : decode_row_checked rest2 (outLen - (257 - h)) with
                | ok tail => rw [hrec] at he; exact absurd he (by simp [Except.map])
                | error e2 =>
                  rw [hrec] at he
                  simp only [Except.map] at he
                  injection he with he
                  subst he
                  exact ihr.1 e2 hrec
              · intro out hout
                cases hrec : decode_row_checked rest2 (outLen - (257 - h)) with
                | error e2 => rw [hrec] at hout; exact absurd hout (by simp [Except.map])
                | ok tail =>
                  rw [hrec] at hout
                  simp only [Except.map] at hout
                  injection hout with hout
                  subst hout
                  obtain ⟨htl, htd⟩ := ihr.2 tail hrec
                  constructor
                  · rw [List.length_append, List.length_replicate]
                    omega
                  · rw [decode_row_repeat h b rest2 (by omega), htd]
            · rw [drc_repeat_out h b rest2 outLen (by omega) hout127]
              constructor
              · intro e he
                injection he with he
                exact he.symm
              · intro out hout
                exact absurd hout (by simp)

/-! ### Spec-modelled channel framing layer -/

/-- Modelled from the spec: the format-variant enumeration of §3
(`{Standard, LargeDocument}`), selecting the row-length field width. -/
inductive FormatVariant where
  | Standard
  | LargeDocument
deriving DecidableEq

/-- Modelled from the spec: table field width, 2 bytes for the standard
variant and 4 for the large-document variant (§4.3). -/
def fieldWidth : FormatVariant → Nat
  | .Standard => 2
  | .LargeDocument => 4

/-- Big-endian value of a byte sequence (most significant byte first). -/
def beValue (bytes : List Nat) : Nat :=
  bytes.foldl (fun acc b => acc * 256 + b) 0

/-- Modelled from the spec: read the `height` big-endian row-length entries
of width `w` from the head of the buffer (§4.3). -/
def readTable (w height : Nat) (data : List Nat) : List Nat :=
  (List.range height).map (fun i => beValue ((data.drop (i * w)).take w))

/-- Modelled from the spec: decode the rows one after the other; a declared
row length larger than the remaining buffer fails with `TruncatedRow`, a row
that does not decode to exactly `rowLen` bytes fails with `SizeMismatch`,
and row decode errors (`MalformedRun`) propagate (§4.3, §7). -/
def decodeRowsChecked : List Nat → List Nat → Nat → Except PackbitsError (List Nat)
  | [], _, _ => .ok []
  | len :: lens, data, rowLen =>
    if data.length < len then .error .TruncatedRow
    else
      match decode_row_checked (data.take len) rowLen with
      | .error e => .error e
      | .ok row =>
        if row.length = rowLen then
          match decodeRowsChecked lens (data.drop len) rowLen with
          | .error e => .error e
          | .ok rows => .ok (row ++ rows)
        else .error .SizeMismatch

/-- Modelled from the spec: the framing-layer decode of §4.3, missing from
the source in checked form (the source `decode` trusts the table blindly).
It fails with `TruncatedTable` when fewer bytes than the declared table size
are available, then decodes each row from its declared slice.  All access is
through bounds-checked list operations, so it never reads past the input. -/
def decode_channel_checked (compressed : List Nat) (height width depth : Nat)
    (variant : FormatVariant) : Except PackbitsError (List Nat) :=
  let w := fieldWidth variant
  if compressed.length < height * w then .error .TruncatedTable
  else
    decodeRowsChecked (readTable w height compressed)
      (compressed.drop (height * w)) (width * depth)

theorem decodeRowsChecked_ok_length :
    ∀ (lens data : List Nat) (rowLen : Nat) (out : List Nat),
      decodeRowsChecked lens data rowLen = .ok out →
      out.length = lens.length * rowLen := by
  intro lens
  induction lens with
  | nil =>
    intro data rowLen out hout
    simp only [decodeRowsChecked] at hout
    injection hout with hout
    subst hout
    simp
  | cons len lens ih =>
    intro data rowLen out hout
    simp only [decodeRowsChecked] at hout
    split at hout
    · exact absurd hout (by simp)
    · split at hout
      · exact absurd hout (by simp)
      · next row heq =>
          split at hout
          · next hrl =>
              split at hout
              · exact absurd hout (by simp)
              · next rows heq2 =>
                  injection hout with hout
                  subst hout
                  rw [List.length_append, hrl, ih (data.drop len) rowLen rows heq2]
                  simp only [List.length_cons]
                  ring
          · exact absurd hout (by simp)

/-! ### Byte order of the row-length table (source `decode`, lines 81-115) -/

/-- The 16-bit byte swap of `decode` (lines 101-102):
`((length & 0xff) << 8) | ((length & 0xff00) >> 8)`. -/
def swap16 (v : Nat) : Nat :=
  ((v &&& 0xff) <<< 8) ||| ((v &&& 0xff00) >>> 8)

/-- The 32-bit byte swap of `decode` (lines 110-113):
`((length & 0xff000000) >> 24) | ((length & 0xff00) << 8) |
 ((length & 0xff0000) >> 8) | ((length & 0xff) << 24)`. -/
def swap32 (v : Nat) : Nat :=
  ((v &&& 0xff000000) >>> 24) ||| ((v &&& 0xff00) <<< 8) |||
    ((v &&& 0xff0000) >>> 8) ||| ((v &&& 0xff) <<< 24)

/-- The value of `lengths_u16[i]` (line 100): the type pун reads the two
table bytes `b0 b1` as one `uint16_t` in host byte order. -/
def readU16 (b0 b1 : Nat) (little : Bool) : Nat :=
  if little then b0 + 256 * b1 else 256 * b0 + b1

/-- The value of `lengths_u32[i]` (line 108): the four table bytes
`b0 b1 b2 b3` read as one `uint32_t` in host byte order. -/
def readU32 (b0 b1 b2 b3 : Nat) (little : Bool) : Nat :=
  if little then b0 + 256 * b1 + 65536 * b2 + 16777216 * b3
  else b3 + 256 * b2 + 65536 * b1 + 16777216 * b0

/-- The row length computed by `decode` for a version-1 table entry
(lines 97-102): read in host order, then byte-swap when
`need_swap = (sys.byteorder == 'little')`. -/
def tableEntry16 (b0 b1 : Nat) (little : Bool) : Nat :=
  if little then swap16 (readU16 b0 b1 little) else readU16 b0 b1 little

/-- The row length computed by `decode` for a version-2 table entry
(lines 105-113). -/
def tableEntry32 (b0 b1 b2 b3 : Nat) (little : Bool) : Nat :=
  if little then swap32 (readU32 b0 b1 b2 b3 little) else readU32 b0 b1 b2 b3 little

theorem and_byte_mask (v k : Nat) :
    v &&& (255 <<< k) = v / 2 ^ k % 256 * 2 ^ k := by
  have hr : v / 2 ^ k % 256 * 2 ^ k = ((v >>> k) % 2 ^ 8) <<< k := by
    rw [Nat.shiftLeft_eq, Nat.shiftRight_eq_div_pow]
    norm_num
  rw [hr]
  apply Nat.eq_of_testBit_eq
  intro i
  rw [show (255 : Nat) = 2 ^ 8 - 1 from rfl]
  simp only [Nat.testBit_and, Nat.testBit_shiftLeft, Nat.testBit_mod_two_pow,
    Nat.testBit_shiftRight, Nat.testBit_two_pow_sub_one]
  by_cases hk : k ≤ i
  · have hik : k + (i - k) = i := by omega
    simp [hk, hik, Bool.and_assoc, Bool.and_comm, Bool.and_left_comm]
  · simp [hk]

theorem swap16_eq (v : Nat) : swap16 v = 256 * (v % 256) + v / 256 % 256 := by
  rw [swap16]
  rw [show (0xff00 : Nat) = 255 <<< 8 from rfl, and_byte_mask]
  rw [show (0xff : Nat) = 2 ^ 8 - 1 from rfl, Nat.and_pow_two_sub_one_eq_mod]
  rw [Nat.shiftLeft_eq, Nat.shiftRight_eq_div_pow]
  rw [Nat.mul_div_cancel _ (by norm_num : 0 < (2 : Nat) ^ 8)]
  have hlt : v / 2 ^ 8 % 256 < 2 ^ 8 := by
    have := Nat.mod_lt (v / 2 ^ 8) (by norm_num : 0 < 256)
    norm_num at this ⊢
    omega
  rw [Nat.mul_comm (v % 2 ^ 8) (2 ^ 8)]
  rw [← Nat.mul_add_lt_is_or hlt (v % 2 ^ 8)]
  norm_num

theorem nat_or_left_comm (a b c : Nat) : a ||| (b ||| c) = b ||| (a ||| c) := by
  rw [← Nat.or_assoc, Nat.or_comm a b, Nat.or_assoc]

theorem swap32_eq (v : Nat) :
    swap32 v = 16777216 * (v % 256) + 65536 * (v / 256 % 256) +
      256 * (v / 65536 % 256) + v / 16777216 % 256 := by
  rw [swap32]
  rw [show (0xff000000 : Nat) = 255 <<< 24 from rfl, and_byte_mask]
  rw [show (0xff00 : Nat) = 255 <<< 8 from rfl, and_byte_mask]
  rw [show (0xff0000 : Nat) = 255 <<< 16 from rfl, and_byte_mask]
  rw [show (0xff : Nat) = 2 ^ 8 - 1 from rfl, Nat.and_pow_two_sub_one_eq_mod]
  rw [Nat.shiftLeft_eq, Nat.shiftLeft_eq, Nat.shiftRight_eq_div_pow,
    Nat.shiftRight_eq_div_pow]
  have e1 : v / 2 ^ 24 % 256 * 2 ^ 24 / 2 ^ 24 = v / 2 ^ 24 % 256 :=
    Nat.mul_div_cancel _ (by norm_num)
  have e2 : v / 2 ^ 8 % 256 * 2 ^ 8 * 2 ^ 8 = 2 ^ 16 * (v / 2 ^ 8 % 256) := by ring
  have e3 : v / 2 ^ 16 % 256 * 2 ^ 16 / 2 ^ 8 = 2 ^ 8 * (v / 2 ^ 16 % 256) := by
    rw [show (2 : Nat) ^ 16 = 2 ^ 8 * 2 ^ 8 by norm_num, ← Nat.mul_assoc]
    rw [Nat.mul_div_cancel _ (by norm_num : 0 < (2 : Nat) ^ 8)]
    ring
  have e4 : v % 2 ^ 8 * 2 ^ 24 = 2 ^ 24 * (v % 2 ^ 8) := Nat.mul_comm _ _
  rw [e1, e2, e3, e4]
  have hb0 : v / 2 ^ 24 % 256 < 2 ^ 8 := by
    have := Nat.mod_lt (v / 2 ^ 24) (by norm_num : 0 < 256)
    norm_num at this ⊢
    omega
  have hc : 2 ^ 8 * (v / 2 ^ 16 % 256) ||| v / 2 ^ 24 % 256 < 2 ^ 16 := by
    apply Nat.or_lt_two_pow
    · have := Nat.mod_lt (v / 2 ^ 16) (by norm_num : 0 < 256)
      norm_num at this ⊢
      omega
    · norm_num at hb0 ⊢
      omega
  have hd : 2 ^ 16 * (v / 2 ^ 8 % 256) ||| (2 ^ 8 * (v / 2 ^ 16 % 256) ||| v / 2 ^ 24 % 256)
      < 2 ^ 24 := by
    apply Nat.or_lt_two_pow
    · have := Nat.mod_lt (v / 2 ^ 8) (by norm_num : 0 < 256)
      norm_num at this ⊢
      omega
    · calc 2 ^ 8 * (v / 2 ^ 16 % 256) ||| v / 2 ^ 24 % 256 < 2 ^ 16 := hc
        _ ≤ 2 ^ 24 := by norm_num
  have hsum : (16777216 : Nat) * (v % 256) + 65536 * (v / 256 % 256) +
      256 * (v / 65536 % 256) + v / 16777216 % 256 =
      2 ^ 24 * (v % 2 ^ 8) |||
        (2 ^ 16 * (v / 2 ^ 8 % 256) ||| (2 ^ 8 * (v / 2 ^ 16 % 256) ||| v / 2 ^ 24 % 256)) := by
    rw [← Nat.mul_add_lt_is_or hd (v % 2 ^ 8)]
    rw [← Nat.mul_add_lt_is_or hc (v / 2 ^ 8 % 256)]
    rw [← Nat.mul_add_lt_is_or hb0 (v / 2 ^ 16 % 256)]
    simp only [show (2 : Nat) ^ 8 = 256 from rfl, show (2 : Nat) ^ 16 = 65536 from rfl,
      show (2 : Nat) ^ 24 = 16777216 from rfl]
    omega
  rw [hsum]
  apply Nat.eq_of_testBit_eq
  intro i
  simp only [Nat.testBit_or]
  simp [Bool.or_comm, Bool.or_left_comm, Bool.or_assoc]

theorem chain_ne_range (n : Nat) :
    List.Chain' (fun a b => a ≠ b) (List.range n) := by
  cases n with
  | zero => simp
  | succ m =>
    rw [List.chain'_range_succ]
    intro i hi
    omega

/-! ### Claim theorems -/

/-- Claim C1: for every byte sequence `x` (including the empty sequence and
one-byte sequences), decoding the encoder's output in whole-buffer mode
(running the row decoder over the entire encoded buffer, with target output
length `len(x)`) reproduces `x` exactly. -/
theorem claim_c1_round_trip (x : List Nat) : decode_row (encode x) = x :=
  decode_row_encode x

/-- Claim C2 (spec-modelled): for every compressed row buffer and declared
length, the bounds-checked row decode either fails with `MalformedRun` (the
only error it can produce) or succeeds with an output that fits in the
declared output length and agrees with the unchecked row decoder, never
reading or writing out of bounds. -/
theorem claim_c2_malformed_run (input : List Nat) (outLen : Nat) :
    (∀ e, decode_row_checked input outLen = .error e → e = .MalformedRun) ∧
    (∀ out, decode_row_checked input outLen = .ok out →
      out.length ≤ outLen ∧ out = decode_row input) :=
  decode_row_checked_safe_aux input.length input le_rfl outLen

theorem claim_c2_witness :
    ([5] : List Nat).length ≤ 1 ∧ ([5] : List Nat) = decode_row [0, 5] :=
  (claim_c2_malformed_run [0, 5] 1).2 [5]
    (by simp [decode_row_checked, Except.map, drc_nil])

/-- Claim C3 (spec-modelled): the framing-layer decode fails with
`TruncatedTable` when fewer bytes than the declared table size are
available; on success the decoded byte count equals
`height * width * bytes_per_sample`; and a length-table entry one byte
larger than the available row data fails with `TruncatedRow`. -/
theorem claim_c3_framing_errors :
    (∀ (compressed : List Nat) height width depth variant,
      compressed.length < height * fieldWidth variant →
      decode_channel_checked compressed height width depth variant =
        .error .TruncatedTable) ∧
    (∀ (compressed : List Nat) height width depth variant out,
      decode_channel_checked compressed height width depth variant = .ok out →
      out.length = height * (width * depth)) ∧
    (∀ (rowData : List Nat) width depth b0 b1,
      256 * b0 + b1 = rowData.length + 1 →
      decode_channel_checked (b0 :: b1 :: rowData) 1 width depth .Standard =
        .error .TruncatedRow) := by
  refine ⟨?_, ?_, ?_⟩
  · intro compressed height width depth variant hcond
    simp [decode_channel_checked, hcond]
  · intro compressed height width depth variant out hout
    simp only [decode_channel_checked] at hout
    by_cases hcond : compressed.length < height * fieldWidth variant
    · rw [if_pos hcond] at hout
      exact absurd hout (by simp)
    · rw [if_neg hcond] at hout
      have hlen2 : (readTable (fieldWidth variant) height compressed).length = height := by
        simp [readTable]
      rw [decodeRowsChecked_ok_length _ _ _ out hout, hlen2]
  · intro rowData width depth b0 b1 hlen
    simp only [decode_channel_checked, fieldWidth]
    rw [if_neg (by simp)]
    have ht : readTable 2 1 (b0 :: b1 :: rowData) = [b0 * 256 + b1] := by
      rw [readTable, show List.range 1 = [0] from rfl]
      simp [beValue]
    have hdrop : (b0 :: b1 :: rowData).drop (1 * 2) = rowData := by simp
    rw [ht, hdrop]
    simp only [decodeRowsChecked]
    rw [if_pos (by omega)]

theorem claim_c3_witness :
    decode_channel_checked [] 1 1 1 FormatVariant.Standard =
        .error .TruncatedTable ∧
      decode_channel_checked [0, 1] 1 1 1 FormatVariant.Standard =
        .error .TruncatedRow :=
  ⟨claim_c3_framing_errors.1 [] 1 1 1 FormatVariant.Standard (by simp [fieldWidth]),
    claim_c3_framing_errors.2.2 [] 1 1 0 1 (by simp)⟩

/-- Claim C4: for both sample widths, applying the prediction decode
(forward cumulative sum with unsigned wraparound) and then the prediction
encode (reverse-order difference with matching wraparound) restores the
buffer exactly, and neither transform changes the buffer's length. -/
theorem claim_c4_prediction_round_trip :
    (∀ b : List (ZMod 256),
      encode_prediction_8bit (decode_prediction_8bit b) = b ∧
      (decode_prediction_8bit b).length = b.length ∧
      (encode_prediction_8bit b).length = b.length) ∧
    (∀ b : List (ZMod 65536),
      encode_prediction_16bit (decode_prediction_16bit b) = b ∧
      (decode_prediction_16bit b).length = b.length ∧
      (encode_prediction_16bit b).length = b.length) := by
  constructor
  · intro b
    cases b with
    | nil => exact ⟨rfl, rfl, rfl⟩
    | cons x rest =>
      refine ⟨?_, ?_, ?_⟩
      · simp [decode_prediction_8bit, encode_prediction_8bit,
          predDiffLoop_predSumLoop]
      · simp [decode_prediction_8bit, predSumLoop_length]
      · simp [encode_prediction_8bit, predDiffLoop_length]
  · intro b
    cases b with
    | nil => exact ⟨rfl, rfl, rfl⟩
    | cons x rest =>
      refine ⟨?_, ?_, ?_⟩
      · simp [decode_prediction_16bit, encode_prediction_16bit,
          predDiffLoop_predSumLoop]
      · simp [decode_prediction_16bit, predSumLoop_length]
      · simp [encode_prediction_16bit, predDiffLoop_length]

/-- Claim C5: the encoder matches the spec's worked examples: empty input
gives empty output, the single byte 5 gives `[0x00, 0x05]`, and
`[1,2,3,3,3,3,3,4,5]` gives `[0x01,1,2, 0xFC,3, 0x01,4,5]`. -/
theorem claim_c5_worked_examples :
    encode [] = [] ∧ encode [5] = [0, 5] ∧
    encode [1, 2, 3, 3, 3, 3, 3, 4, 5] = [1, 1, 2, 252, 3, 1, 4, 5] :=
  ⟨rfl, rfl, by decide⟩

/-- Claim C6: two adjacent equal bytes always start a repeat run: a maximal
run of exactly two equal bytes (neither neighbour equal to it) is emitted as
the 2-byte repeat run `[0xFF, x]`, never folded into a surrounding literal
run; in particular `encode [7,7] = [0xFF, 7]`. -/
theorem claim_c6_pair_starts_rle :
    encode [7, 7] = [255, 7] ∧
    ∀ (x : Nat) (a b : List Nat), a.getLast? ≠ some x → b.head? ≠ some x →
      List.IsInfix [255, x] (encode (a ++ x :: x :: b)) := by
  constructor
  · decide
  · intro x a b ha hb
    cases a with
    | nil =>
      simp only [List.nil_append]
      rw [encode_eq_loop _ (by simp)]
      obtain ⟨rest, hrest⟩ := encodeLoop_pair_tail x b hb [] 0
      rw [hrest]
      exact ⟨finish_raw [], rest, by simp⟩
    | cons z t =>
      rw [encode_eq_loop _ (by simp only [List.length_append, List.length_cons]; omega)]
      obtain ⟨out, buf2, rc2, hout⟩ :=
        encodeLoop_reaches_pair x b (z :: t) (by simp) ha [] false 0
      rw [hout]
      obtain ⟨rest, hrest⟩ := encodeLoop_pair_tail x b hb buf2 rc2
      rw [hrest]
      exact ⟨out ++ finish_raw buf2, rest, by simp [List.append_assoc]⟩

theorem claim_c6_witness : List.IsInfix [255, 7] (encode [1, 7, 7, 2]) :=
  claim_c6_pair_starts_rle.2 7 [1] [2] (by decide) (by decide)

/-- Claim C7: a run of exactly 128 identical bytes encodes as the single
repeat run `[0x81, v]`, and a 128-byte input with no two adjacent bytes
equal encodes as the single literal run `0x7F` followed by the input. -/
theorem claim_c7_boundary_runs :
    (∀ v, encode (List.replicate 128 v) = [129, v]) ∧
    (∀ l : List Nat, l.length = 128 → List.Chain' (fun a b => a ≠ b) l →
      encode l = 127 :: l) :=
  ⟨encode_replicate_128, encode_chain_128⟩

theorem claim_c7_witness :
    encode (List.replicate 128 7) = [129, 7] ∧
    encode (List.range 128) = 127 :: List.range 128 :=
  ⟨claim_c7_boundary_runs.1 7,
    claim_c7_boundary_runs.2 (List.range 128) (by simp) (chain_ne_range 128)⟩

/-- Counterexample to claim C8 as stated: `List.range 129` is a 129-byte
input with no two adjacent bytes equal, yet the first emitted literal run
has header byte 126 (a 127-byte literal run), not the claimed header 0x7F
covering the first 128 bytes. -/
theorem claim_c8_counterexample :
    (List.range 129).length = 129 ∧
    List.Chain' (fun a b => a ≠ b) (List.range 129) ∧
    (encode (List.range 129)).head? = some 126 ∧
    (encode (List.range 129)).head? ≠ some 127 := by
  have hch : List.Chain' (fun a b => a ≠ b) (List.range 129) := chain_ne_range 129
  have henc := encode_chain_129 (List.range 129) (by simp) hch
  refine ⟨by simp, hch, ?_, ?_⟩
  · rw [henc]
    rfl
  · rw [henc]
    simp

/-- Claim C8 (amended): in the RAW state the pending literal buffer is
flushed when it already holds 127 bytes and a further literal byte arrives,
emitting a 127-byte literal run (header 0x7E); for a 129-byte input with no
two adjacent bytes equal, the first emitted literal run covers the first
127 bytes and the remaining two bytes form a final 2-byte literal run. -/
theorem claim_c8_amended_flush (l : List Nat) (hlen : l.length = 129)
    (hchain : List.Chain' (fun a b => a ≠ b) l) :
    encode l = (126 :: l.take 127) ++ 1 :: l.drop 127 :=
  encode_chain_129 l hlen hchain

theorem claim_c8_witness :
    encode (List.range 129) =
      (126 :: (List.range 129).take 127) ++ 1 :: (List.range 129).drop 127 :=
  claim_c8_amended_flush (List.range 129) (by simp) (chain_ne_range 129)

/-- Claim C9: a table entry stored big-endian on disk is read back as its
big-endian value on both little-endian hosts (where the bytes are read
swapped and then swapped back) and big-endian hosts (where they are read
directly), for both the 2-byte and the 4-byte table variants. -/
theorem claim_c9_big_endian :
    (∀ b0 b1 little, b0 < 256 → b1 < 256 →
      tableEntry16 b0 b1 little = 256 * b0 + b1) ∧
    (∀ b0 b1 b2 b3 little, b0 < 256 → b1 < 256 → b2 < 256 → b3 < 256 →
      tableEntry32 b0 b1 b2 b3 little = 16777216 * b0 + 65536 * b1 + 256 * b2 + b3) := by
  constructor
  · intro b0 b1 little h0 h1
    cases little with
    | false => simp [tableEntry16, readU16]
    | true =>
      simp only [tableEntry16, readU16, if_true]
      rw [swap16_eq]
      omega
  · intro b0 b1 b2 b3 little h0 h1 h2 h3
    cases little with
    | false =>
      simp only [tableEntry32, readU32, if_false, Bool.false_eq_true]
      ring
    | true =>
      simp only [tableEntry32, readU32, if_true]
      rw [swap32_eq]
      omega

theorem claim_c9_witness :
    tableEntry16 1 0 true = 256 ∧ tableEntry16 1 0 false = 256 :=
  ⟨claim_c9_big_endian.1 1 0 true (by norm_num) (by norm_num),
    claim_c9_big_endian.1 1 0 false (by norm_num) (by norm_num)⟩

/-- Claim C10: the encoder's output never exceeds twice the input length,
so the internally allocated `2 * n` byte output buffer is never overrun. -/
theorem claim_c10_output_bound (data : List Nat) :
    (encode data).length ≤ 2 * data.length := by
  match data with
  | [] => simp [encode]
  | [x] => simp [encode]
  | x :: y :: rest =>
    have hb := encodeLoop_length_le (x :: y :: rest).length (x :: y :: rest)
      le_rfl (by simp) [] false 0
    rw [show encode (x :: y :: rest) = encodeLoop (x :: y :: rest) [] false 0 from rfl]
    simpa [rawCost] using hb

end Packbits
